import Mathlib

/-!
Shallow embedding of the YouTube interceptor addon
(`src/python/mitmproxy-addons/youtube_interceptor.py`) and proofs about it.

The embedding translates the addon's own code: the eligibility matcher
(`is_youtube_domain`, `is_html_response`), the structural mutation performed
inline in `YouTubeInterceptor.response` (modelled as `inject`), the header
reconciliation, and the handler `response` itself.  The external collaborators
(the mitmproxy engine and the BeautifulSoup HTML library) are not part of the
repository; following the design document they are modelled through their
stated contracts: HTML documents are ordered trees of elements and text nodes,
`find` returns the first matching element in document order or nothing, and
tag insertion at index 0 prepends a child.  Parsing and serialization of body
text are kept abstract (parameters of the handler), since the claims are about
what the addon does with the tree, not about the HTML grammar.
-/

/-- Python `str.lower()` restricted to basic latin letters, which is all the
addon's patterns use.  Defined over the character list so that it evaluates
by `decide`. -/
def lowerStr (s : String) : String :=
  String.mk (s.data.map Char.toLower)

/-- Python `str.strip()`: remove leading and trailing whitespace. -/
def trimChars (s : String) : String :=
  String.mk (((s.data.dropWhile Char.isWhitespace).reverse.dropWhile
    Char.isWhitespace).reverse)

/-- Python's substring containment `l in m` on character lists: some
contiguous segment of `m` equals `l`. -/
def subList (l : List Char) : List Char → Bool
  | [] => l.isPrefixOf []
  | b :: bs => l.isPrefixOf (b :: bs) || subList l bs

/-- Python's `needle in hay` on strings. -/
def subOf (needle hay : String) : Bool :=
  subList needle.data hay.data

theorem isPrefixOf_iff_ex : ∀ l m : List Char,
    l.isPrefixOf m = true ↔ ∃ t, m = l ++ t
  | [], m => by simp [List.isPrefixOf]
  | a :: as, [] => by simp [List.isPrefixOf]
  | a :: as, b :: bs => by
    simp only [List.isPrefixOf, Bool.and_eq_true, beq_iff_eq]
    rw [isPrefixOf_iff_ex as bs]
    constructor
    · rintro ⟨rfl, t, rfl⟩
      exact ⟨t, rfl⟩
    · rintro ⟨t, ht⟩
      cases ht
      exact ⟨rfl, t, rfl⟩

theorem subList_iff_ex : ∀ l m : List Char,
    subList l m = true ↔ ∃ u v, m = u ++ l ++ v
  | l, [] => by
    cases l with
    | nil => simp [subList, List.isPrefixOf]
    | cons a as => simp [subList, List.isPrefixOf]
  | l, b :: bs => by
    simp only [subList, Bool.or_eq_true]
    rw [isPrefixOf_iff_ex l (b :: bs), subList_iff_ex l bs]
    constructor
    · rintro (⟨t, ht⟩ | ⟨u, v, huv⟩)
      · exact ⟨[], t, by simp [ht]⟩
      · exact ⟨b :: u, v, by simp [huv]⟩
    · rintro ⟨u, v, huv⟩
      cases u with
      | nil => exact Or.inl ⟨v, by simpa using huv⟩
      | cons x xs =>
        simp only [List.cons_append, List.cons.injEq] at huv
        exact Or.inr ⟨xs, v, huv.2⟩

/-- Transitivity of substring containment. -/
theorem subOf_trans {a b c : String} (h1 : subOf a b = true)
    (h2 : subOf b c = true) : subOf a c = true := by
  unfold subOf at *
  rw [subList_iff_ex] at *
  obtain ⟨u1, v1, h1⟩ := h1
  obtain ⟨u2, v2, h2⟩ := h2
  exact ⟨u2 ++ u1, v1 ++ v2, by simp [h2, h1]⟩

/-! ### Eligibility matcher -/

/-- Eligibility Rule Set: `self.youtube_domains` from `__init__`. -/
def youtube_domains : List String :=
  ["youtube.com", "m.youtube.com", "www.youtube.com", "music.youtube.com"]

/-- Translation of `YouTubeInterceptor.is_youtube_domain`.  The Python
argument may be `None`, hence `Option String`; `if not host` is the Python
falsiness test, true for both `None` and the empty string. -/
def is_youtube_domain (host : Option String) : Bool :=
  match host with
  | none => false
  | some h =>
    if h = "" then false
    else youtube_domains.any (fun domain => subOf domain (lowerStr h))

/-! ### Headers (mitmproxy `Headers`: ordered, case-insensitive keys) -/

/-- Case-insensitive header-key comparison. -/
def keyEq (a b : String) : Bool :=
  lowerStr a == lowerStr b

/-- Lookup of a header value (first entry whose key matches
case-insensitively), the model of `headers.get(k)`. -/
def hget (hs : List (String × String)) (k : String) : Option String :=
  match hs with
  | [] => none
  | (k2, v) :: rest => if keyEq k2 k then some v else hget rest k

/-- Header assignment `headers[k] = v`: overwrite the value at the first
matching entry (dropping later duplicates), or append a new entry. -/
def hset (hs : List (String × String)) (k v : String) :
    List (String × String) :=
  match hs with
  | [] => [(k, v)]
  | (k2, v2) :: rest =>
    if keyEq k2 k then (k2, v) :: rest.filter (fun p => !(keyEq p.1 k))
    else (k2, v2) :: hset rest k v

theorem hget_hset (hs : List (String × String)) (k v : String) :
    hget (hset hs k v) k = some v := by
  induction hs with
  | nil => simp [hset, hget, keyEq]
  | cons p rest ih =>
    obtain ⟨k2, v2⟩ := p
    by_cases h : keyEq k2 k = true
    · simp [hset, h, hget]
    · simp only [hset, h, Bool.false_eq_true, if_false, hget]
      exact ih

/-- Translation of `YouTubeInterceptor.is_html_response`:
`'text/html' in response.headers.get('content-type', '').lower()`. -/
def is_html_response (headers : List (String × String)) : Bool :=
  subOf "text/html" (lowerStr ((hget headers "content-type").getD ""))

/-! ### Document Tree and the Structural Mutator -/

inductive Node where
  | elem (tag : String) (children : List Node)
  | text (s : String)

mutual
def findFirstTag (t : String) : Node → Option Node
  | .text _ => none
  | .elem tag cs => if tag = t then some (.elem tag cs) else findFirstTagL t cs

def findFirstTagL (t : String) : List Node → Option Node
  | [] => none
  | n :: ns =>
    match findFirstTag t n with
    | some m => some m
    | none => findFirstTagL t ns
end

def prependChild (s : Node) : Node → Node
  | .elem tag cs => .elem tag (s :: cs)
  | .text x => .text x

mutual
def replaceFirstTag (t : String) (f : Node → Node) : Node → Node × Bool
  | .text s => (.text s, false)
  | .elem tag cs =>
    if tag = t then (f (.elem tag cs), true)
    else
      let r := replaceFirstTagL t f cs
      (.elem tag r.1, r.2)

def replaceFirstTagL (t : String) (f : Node → Node) : List Node → List Node × Bool
  | [] => ([], false)
  | n :: ns =>
    let r := replaceFirstTag t f n
    if r.2 then (r.1 :: ns, true)
    else
      let rs := replaceFirstTagL t f ns
      (n :: rs.1, rs.2)
end

mutual
theorem replace_of_find_none (t : String) (f : Node → Node) :
    ∀ n : Node, findFirstTag t n = none → replaceFirstTag t f n = (n, false)
  | .text s, _ => rfl
  | .elem tag cs, h => by
    simp only [findFirstTag] at h
    by_cases ht : tag = t
    · simp [ht] at h
    · simp only [ht, if_false] at h
      simp only [replaceFirstTag, ht, if_false]
      rw [replaceL_of_find_none t f cs h]

theorem replaceL_of_find_none (t : String) (f : Node → Node) :
    ∀ l : List Node, findFirstTagL t l = none → replaceFirstTagL t f l = (l, false)
  | [], _ => rfl
  | n :: ns, h => by
    simp only [findFirstTagL] at h
    cases hn : findFirstTag t n with
    | some m => rw [hn] at h; exact absurd h (by simp)
    | none =>
      rw [hn] at h
      simp only [replaceFirstTagL, replace_of_find_none t f n hn]
      simp only [Bool.false_eq_true, if_false]
      rw [replaceL_of_find_none t f ns h]
end

mutual
theorem find_some_shape (t : String) :
    ∀ n m : Node, findFirstTag t n = some m → ∃ cs, m = .elem t cs
  | .text s, m, h => by simp [findFirstTag] at h
  | .elem tag cs, m, h => by
    by_cases ht : tag = t
    · simp only [findFirstTag, ht, if_true, Option.some.injEq] at h
      exact ⟨cs, h.symm⟩
    · simp only [findFirstTag, ht, if_false] at h
      exact findL_some_shape t cs m h

theorem findL_some_shape (t : String) :
    ∀ l : List Node, ∀ m : Node, findFirstTagL t l = some m → ∃ cs, m = .elem t cs
  | [], m, h => by simp [findFirstTagL] at h
  | n :: ns, m, h => by
    simp only [findFirstTagL] at h
    cases hn : findFirstTag t n with
    | some m2 =>
      rw [hn] at h
      simp only [Option.some.injEq] at h
      exact h ▸ find_some_shape t n m2 hn
    | none =>
      rw [hn] at h
      exact findL_some_shape t ns m h
end

mutual
theorem replace_of_find_some (t : String) (f : Node → Node)
    (hf : ∀ cs : List Node, ∃ cs2, f (.elem t cs) = .elem t cs2) :
    ∀ n m : Node, findFirstTag t n = some m →
      (replaceFirstTag t f n).2 = true ∧
      findFirstTag t (replaceFirstTag t f n).1 = some (f m)
  | .text s, m, h => by simp [findFirstTag] at h
  | .elem tag cs, m, h => by
    by_cases ht : tag = t
    · subst ht
      simp only [findFirstTag, if_true, Option.some.injEq] at h
      subst h
      obtain ⟨cs2, hcs2⟩ := hf cs
      simp [replaceFirstTag, findFirstTag, hcs2]
    · simp only [findFirstTag, ht, if_false] at h
      obtain ⟨h1, h2⟩ := replaceL_of_find_some t f hf cs m h
      simp only [replaceFirstTag, ht, if_false, h1]
      simpa [findFirstTag, ht] using h2

theorem replaceL_of_find_some (t : String) (f : Node → Node)
    (hf : ∀ cs : List Node, ∃ cs2, f (.elem t cs) = .elem t cs2) :
    ∀ l : List Node, ∀ m : Node, findFirstTagL t l = some m →
      (replaceFirstTagL t f l).2 = true ∧
      findFirstTagL t (replaceFirstTagL t f l).1 = some (f m)
  | [], m, h => by simp [findFirstTagL] at h
  | n :: ns, m, h => by
    simp only [findFirstTagL] at h
    cases hn : findFirstTag t n with
    | some m2 =>
      rw [hn] at h
      simp only [Option.some.injEq] at h
      subst h
      obtain ⟨h1, h2⟩ := replace_of_find_some t f hf n m2 hn
      simp only [replaceFirstTagL, h1, if_true, findFirstTagL, h2]
      exact ⟨trivial, trivial⟩
    | none =>
      rw [hn] at h
      obtain ⟨h1, h2⟩ := replaceL_of_find_some t f hf ns m h
      have hr := replace_of_find_none t f n hn
      simp only [replaceFirstTagL, hr, Bool.false_eq_true, if_false, findFirstTagL, hn, h1, h2]
      exact ⟨trivial, trivial⟩
end

mutual
theorem findOther_replace (t t2 : String) (f : Node → Node)
    (hf : ∀ cs : List Node, ∃ cs2, f (.elem t cs) = .elem t cs2) :
    ∀ n m : Node, findFirstTag t n = some m → findFirstTag t2 n = none →
      findFirstTag t2 (replaceFirstTag t f n).1 = findFirstTag t2 (f m)
  | .text s, m, h, _ => by simp [findFirstTag] at h
  | .elem tag cs, m, h, h2 => by
    by_cases ht : tag = t
    · subst ht
      simp only [findFirstTag, if_true, Option.some.injEq] at h
      subst h
      simp [replaceFirstTag]
    · simp only [findFirstTag, ht, if_false] at h
      by_cases ht2 : tag = t2
      · simp [findFirstTag, ht2] at h2
      · simp only [findFirstTag, ht2, if_false] at h2
        simp only [replaceFirstTag, ht, if_false, findFirstTag, ht2]
        exact findOtherL_replace t t2 f hf cs m h h2

theorem findOtherL_replace (t t2 : String) (f : Node → Node)
    (hf : ∀ cs : List Node, ∃ cs2, f (.elem t cs) = .elem t cs2) :
    ∀ l : List Node, ∀ m : Node, findFirstTagL t l = some m → findFirstTagL t2 l = none →
      findFirstTagL t2 (replaceFirstTagL t f l).1 = findFirstTag t2 (f m)
  | [], m, h, _ => by simp [findFirstTagL] at h
  | n :: ns, m, h, h2 => by
    simp only [findFirstTagL] at h h2
    cases hn2 : findFirstTag t2 n with
    | some x => rw [hn2] at h2; exact absurd h2 (by simp)
    | none =>
    rw [hn2] at h2
    cases hn : findFirstTag t n with
    | some m2 =>
      rw [hn] at h
      simp only [Option.some.injEq] at h
      subst h
      obtain ⟨h1, _⟩ := replace_of_find_some t f hf n m2 hn
      have hnode := findOther_replace t t2 f hf n m2 hn hn2
      simp only [replaceFirstTagL, h1, if_true, findFirstTagL]
      cases hfm : findFirstTag t2 (f m2) with
      | some y =>
        rw [hfm] at hnode
        rw [hnode]
      | none =>
        rw [hfm] at hnode
        rw [hnode]
        exact h2
    | none =>
      rw [hn] at h
      have hr := replace_of_find_none t f n hn
      simp only [replaceFirstTagL, hr, Bool.false_eq_true, if_false, findFirstTagL, hn2]
      exact findOtherL_replace t t2 f hf ns m h h2
end

def scriptNode (payload : String) : Node :=
  .elem "script" [.text (trimChars payload)]

def inject (doc : List Node) (payload : String) : List Node × Bool :=
  match findFirstTagL "head" doc with
  | some _ => replaceFirstTagL "head" (prependChild (scriptNode payload)) doc
  | none =>
    match findFirstTagL "html" doc with
    | some _ =>
      replaceFirstTagL "html" (prependChild (.elem "head" [scriptNode payload])) doc
    | none => (doc, false)

theorem prependChild_keeps_tag (s : Node) (t : String) :
    ∀ cs : List Node, ∃ cs2, prependChild s (.elem t cs) = .elem t cs2 :=
  fun cs => ⟨s :: cs, rfl⟩

theorem inject_into_head_aux (doc : List Node) (P : String) (n : Node)
    (h : findFirstTagL "head" doc = some n) :
    (inject doc P).2 = true ∧
    ∃ cs, n = Node.elem "head" cs ∧
      findFirstTagL "head" (inject doc P).1 =
        some (Node.elem "head" (scriptNode P :: cs)) := by
  obtain ⟨cs, rfl⟩ := findL_some_shape "head" doc n h
  obtain ⟨h1, h2⟩ :=
    replaceL_of_find_some "head" (prependChild (scriptNode P))
      (prependChild_keeps_tag (scriptNode P) "head") doc _ h
  unfold inject
  rw [h]
  exact ⟨h1, cs, rfl, by simpa [prependChild] using h2⟩

theorem inject_synthesizes_head_aux (doc : List Node) (P : String) (n : Node)
    (hnohead : findFirstTagL "head" doc = none)
    (h : findFirstTagL "html" doc = some n) :
    (inject doc P).2 = true ∧
    ∃ cs, n = Node.elem "html" cs ∧
      findFirstTagL "html" (inject doc P).1 =
        some (Node.elem "html" (Node.elem "head" [scriptNode P] :: cs)) ∧
      findFirstTagL "head" (inject doc P).1 =
        some (Node.elem "head" [scriptNode P]) := by
  obtain ⟨cs, rfl⟩ := findL_some_shape "html" doc n h
  obtain ⟨h1, h2⟩ :=
    replaceL_of_find_some "html" (prependChild (.elem "head" [scriptNode P]))
      (prependChild_keeps_tag _ "html") doc _ h
  have h3 :=
    findOtherL_replace "html" "head" (prependChild (.elem "head" [scriptNode P]))
      (prependChild_keeps_tag _ "html") doc _ h hnohead
  unfold inject
  rw [hnohead, h]
  refine ⟨h1, cs, rfl, by simpa [prependChild] using h2, ?_⟩
  rw [h3]
  simp [prependChild, findFirstTag, findFirstTagL]

theorem inject_no_skeleton_pair (doc : List Node) (P : String)
    (h1 : findFirstTagL "head" doc = none)
    (h2 : findFirstTagL "html" doc = none) :
    inject doc P = (doc, false) := by
  unfold inject
  rw [h1, h2]

def extractInjected (doc : List Node) : Option String :=
  match findFirstTagL "head" doc with
  | some (.elem _ (.elem "script" [.text s] :: _)) => some s
  | _ => none

/-- C8 (amended): whenever injection succeeds, re-extracting the text of
the script element sitting as first child of the document's first head
yields the original payload trimmed of leading and trailing whitespace; the
payload is not corrupted beyond the initial trim. -/
theorem inject_roundtrip (doc : List Node) (P : String)
    (h : (inject doc P).2 = true) :
    extractInjected (inject doc P).1 = some (trimChars P) := by
  cases hh : findFirstTagL "head" doc with
  | some n =>
    obtain ⟨-, cs, -, h2⟩ := inject_into_head_aux doc P n hh
    unfold extractInjected
    rw [h2]
    simp [scriptNode]
  | none =>
    cases hl : findFirstTagL "html" doc with
    | some n =>
      obtain ⟨-, cs, -, -, h4⟩ := inject_synthesizes_head_aux doc P n hh hl
      unfold extractInjected
      rw [h4]
      simp [scriptNode]
    | none =>
      rw [inject_no_skeleton_pair doc P hh hl] at h
      simp at h

theorem head_of_injected (doc : List Node) (P : String)
    (h : (inject doc P).2 = true) :
    ∃ cs, findFirstTagL "head" (inject doc P).1 =
      some (Node.elem "head" (scriptNode P :: cs)) := by
  cases hh : findFirstTagL "head" doc with
  | some n =>
    obtain ⟨-, cs, -, h2⟩ := inject_into_head_aux doc P n hh
    exact ⟨cs, h2⟩
  | none =>
    cases hl : findFirstTagL "html" doc with
    | some n =>
      obtain ⟨-, cs, -, -, h4⟩ := inject_synthesizes_head_aux doc P n hh hl
      exact ⟨[], h4⟩
    | none =>
      rw [inject_no_skeleton_pair doc P hh hl] at h
      simp at h

/-- C9: injection is not idempotent: whenever it succeeds, running it again
on the mutated output succeeds again and prepends a second, duplicate script
element to the same head, so the document changes once more. -/
theorem inject_not_idempotent (doc : List Node) (P : String)
    (h : (inject doc P).2 = true) :
    (inject (inject doc P).1 P).2 = true ∧
    ∃ cs, findFirstTagL "head" (inject doc P).1 =
        some (Node.elem "head" (scriptNode P :: cs)) ∧
      findFirstTagL "head" (inject (inject doc P).1 P).1 =
        some (Node.elem "head" (scriptNode P :: scriptNode P :: cs)) ∧
      (inject (inject doc P).1 P).1 ≠ (inject doc P).1 := by
  obtain ⟨cs, hcs⟩ := head_of_injected doc P h
  obtain ⟨h1, cs2, heq, h2⟩ := inject_into_head_aux (inject doc P).1 P _ hcs
  have hcs2 : scriptNode P :: cs = cs2 := by
    injection heq
  subst hcs2
  refine ⟨h1, cs, hcs, h2, fun hcontra => ?_⟩
  rw [hcontra, hcs] at h2
  have := congrArg (fun o => (Option.map (fun n => match n with
    | Node.elem _ l => l.length | _ => 0) o)) h2
  simp at this

/-! ### Exchange Handler -/

/-- Exchange: the slice of a mitmproxy `HTTPFlow` that
`YouTubeInterceptor.response` reads or writes: the request's host, the
response headers, and the response body as decoded text
(`get_text`/`set_text`). -/
structure Exchange where
  host : Option String
  headers : List (String × String)
  body : String
deriving DecidableEq

/-- Translation of `YouTubeInterceptor.response`.  Parsing the body text into
a Document Tree and serializing the mutated tree back (`BeautifulSoup` /
`str(soup)`) belong to the external HTML library, so they are parameters:
`parseHtml` returns `none` when parsing fails (the addon's inner
`try/except`), and `serialize` is the model of `str(soup)`.  The payload is
likewise a parameter; the addon always passes its fixed
`self.injection_script` constant.  The handler either returns the exchange
unchanged (all early-return and error branches of the Python code) or, on the
single success path, replaces the body by the serialized mutated tree and
overwrites `content-length` with the UTF-8 byte length of that new body,
exactly as lines 96-157 of the source do.  The Python `try/except` around the
whole body cannot be seen here: the embedding is a total function, so no
fault can escape by construction. -/
def response (parseHtml : String → Option (List Node))
    (serialize : List Node → String) (payload : String) (ex : Exchange) :
    Exchange :=
  if is_youtube_domain ex.host = true then
    if is_html_response ex.headers = true then
      if ex.body = "" then ex
      else
        match parseHtml ex.body with
        | none => ex
        | some doc =>
          match inject doc payload with
          | (doc2, true) =>
            { ex with
              body := serialize doc2,
              headers := hset ex.headers "content-length"
                (toString (serialize doc2).utf8ByteSize) }
          | (_, false) => ex
    else ex
  else ex

theorem response_dichotomy (parseHtml : String → Option (List Node))
    (serialize : List Node → String) (payload : String) (ex : Exchange) :
    response parseHtml serialize payload ex = ex ∨
    (is_youtube_domain ex.host = true ∧ is_html_response ex.headers = true ∧
      ex.body ≠ "" ∧ ∃ doc doc2, parseHtml ex.body = some doc ∧
        inject doc payload = (doc2, true) ∧
        response parseHtml serialize payload ex =
          { ex with
            body := serialize doc2,
            headers := hset ex.headers "content-length"
              (toString (serialize doc2).utf8ByteSize) }) := by
  unfold response
  by_cases h1 : is_youtube_domain ex.host = true
  case neg => simp [h1]
  rw [if_pos h1]
  by_cases h2 : is_html_response ex.headers = true
  case neg => simp [h2]
  rw [if_pos h2]
  by_cases h3 : ex.body = ""
  case pos => simp [h3]
  rw [if_neg h3]
  cases hp : parseHtml ex.body with
  | none => exact Or.inl rfl
  | some doc =>
    rcases hi : inject doc payload with ⟨doc2, b⟩
    simp only [hi]
    cases b with
    | false => exact Or.inl rfl
    | true => exact Or.inr ⟨h1, h2, h3, doc, doc2, rfl, hi, rfl⟩

/-- C1: the handler never lets a fault propagate (in this embedding it is a
total function) and it mutates the exchange only on the success path: the
first conjunct is the mutate-or-unchanged dichotomy, the second states that
each failure branch (ineligible host, ineligible content type, empty body,
parse failure, missing document skeleton) returns the exchange with body and
headers exactly as they were. -/
theorem response_isolation (parseHtml : String → Option (List Node))
    (serialize : List Node → String) (payload : String) (ex : Exchange) :
    (response parseHtml serialize payload ex = ex ∨
      (is_youtube_domain ex.host = true ∧ is_html_response ex.headers = true ∧
        ex.body ≠ "" ∧ ∃ doc doc2, parseHtml ex.body = some doc ∧
          inject doc payload = (doc2, true) ∧
          response parseHtml serialize payload ex =
            { ex with
              body := serialize doc2,
              headers := hset ex.headers "content-length"
                (toString (serialize doc2).utf8ByteSize) })) ∧
    ((is_youtube_domain ex.host = false ∨ is_html_response ex.headers = false ∨
        ex.body = "" ∨ parseHtml ex.body = none ∨
        (∀ doc, parseHtml ex.body = some doc → (inject doc payload).2 = false)) →
      response parseHtml serialize payload ex = ex) := by
  refine ⟨response_dichotomy parseHtml serialize payload ex, fun hfail => ?_⟩
  rcases response_dichotomy parseHtml serialize payload ex with h | h
  · exact h
  · obtain ⟨h1, h2, h3, doc, doc2, hp, hi, -⟩ := h
    rcases hfail with hf | hf | hf | hf | hf
    · rw [h1] at hf; exact absurd hf (by simp)
    · rw [h2] at hf; exact absurd hf (by simp)
    · exact absurd hf h3
    · rw [hp] at hf; exact absurd hf (by simp)
    · have := hf doc hp
      rw [hi] at this
      exact absurd this (by simp)

/-- C2: on the success path (`injected = true`) the reconciled
`content-length` header holds exactly the UTF-8 byte length of the new body;
when injection does not occur, headers (and body) are left untouched. -/
theorem response_content_length (parseHtml : String → Option (List Node))
    (serialize : List Node → String) (payload : String) (ex : Exchange)
    (doc : List Node) (hp : parseHtml ex.body = some doc)
    (h1 : is_youtube_domain ex.host = true)
    (h2 : is_html_response ex.headers = true) (h3 : ex.body ≠ "") :
    ((inject doc payload).2 = true →
      hget (response parseHtml serialize payload ex).headers "content-length" =
        some (toString
          (response parseHtml serialize payload ex).body.utf8ByteSize)) ∧
    ((inject doc payload).2 = false →
      (response parseHtml serialize payload ex).headers = ex.headers ∧
      (response parseHtml serialize payload ex).body = ex.body) := by
  unfold response
  rw [if_pos h1, if_pos h2, if_neg h3, hp]
  rcases hi : inject doc payload with ⟨doc2, b⟩
  simp only [hi]
  cases b with
  | false =>
    refine ⟨fun htrue => ?_, fun _ => ⟨rfl, rfl⟩⟩
    exact absurd htrue (by simp)
  | true =>
    refine ⟨fun _ => ?_, fun hfalse => ?_⟩
    · exact hget_hset ex.headers "content-length" _
    · exact absurd hfalse (by simp)

theorem is_youtube_domain_eq_any (h : String) :
    is_youtube_domain (some h) =
      youtube_domains.any (fun domain => subOf domain (lowerStr h)) := by
  by_cases he : h = ""
  · subst he
    decide
  · simp only [is_youtube_domain, he, if_false]

/-- C6: `is_youtube_domain` is true exactly when the lower-cased host has
some Eligibility Rule Set entry as a substring, the result is invariant
under the case of the host, and `None` and the empty string are rejected. -/
theorem is_youtube_domain_spec :
    is_youtube_domain none = false ∧
    is_youtube_domain (some "") = false ∧
    (∀ h : String, (is_youtube_domain (some h) = true ↔
      ∃ d ∈ youtube_domains, subOf d (lowerStr h) = true)) ∧
    ∀ h1 h2 : String, lowerStr h1 = lowerStr h2 →
      is_youtube_domain (some h1) = is_youtube_domain (some h2) := by
  refine ⟨rfl, by decide, fun h => ?_, fun h1 h2 hl => ?_⟩
  · rw [is_youtube_domain_eq_any h]
    simp [List.any_eq_true]
  · rw [is_youtube_domain_eq_any h1, is_youtube_domain_eq_any h2, hl]

/-- C6 witness: case-insensitivity applied at `"YOUTUBE.COM"`. -/
theorem is_youtube_domain_spec_witness :
    lowerStr "YOUTUBE.COM" = lowerStr "youtube.com" ∧
    is_youtube_domain (some "YOUTUBE.COM") =
      is_youtube_domain (some "youtube.com") :=
  ⟨by decide, is_youtube_domain_spec.2.2.2 "YOUTUBE.COM" "youtube.com"
    (by decide)⟩

/-- C7: `is_html_response` is true exactly when the declared content type,
lower-cased, has `"text/html"` as a substring; an absent header and a JSON
media type both give false. -/
theorem is_html_response_spec :
    (∀ (hs : List (String × String)) (v : String),
      hget hs "content-type" = some v →
      (is_html_response hs = true ↔ subOf "text/html" (lowerStr v) = true)) ∧
    (∀ hs : List (String × String),
      hget hs "content-type" = none → is_html_response hs = false) ∧
    is_html_response [("content-type", "application/json")] = false := by
  refine ⟨fun hs v hv => ?_, fun hs hv => ?_, by decide⟩
  · unfold is_html_response
    rw [hv]
    simp
  · unfold is_html_response
    rw [hv]
    decide

/-- C7 witness: a `text/html` content type with a charset parameter is
accepted. -/
theorem is_html_response_spec_witness :
    hget [("Content-Type", "text/HTML; charset=utf-8")] "content-type" =
      some "text/HTML; charset=utf-8" ∧
    (is_html_response [("Content-Type", "text/HTML; charset=utf-8")] = true ↔
      subOf "text/html" (lowerStr "text/HTML; charset=utf-8") = true) :=
  ⟨by decide, is_html_response_spec.1 _ _ (by decide)⟩

/-- Modelled from the spec (the claim's refinement candidate, not from the
source): the single-pattern check "the host is non-empty and its lower-cased
form contains the substring `youtube.com`". -/
def single_pattern_check (host : Option String) : Bool :=
  match host with
  | none => false
  | some h =>
    if h = "" then false else subOf "youtube.com" (lowerStr h)

/-- C10: every Eligibility Rule Set entry contains `youtube.com` as a
substring, and consequently `is_youtube_domain` coincides with the
single-pattern check on every host. -/
theorem is_youtube_domain_refines_single :
    youtube_domains.all (fun d => subOf "youtube.com" d) = true ∧
    ∀ host : Option String, is_youtube_domain host = single_pattern_check host := by
  refine ⟨by decide, fun host => ?_⟩
  cases host with
  | none => rfl
  | some h =>
    by_cases he : h = ""
    · subst he
      decide
    · simp only [single_pattern_check, he, if_false]
      rw [is_youtube_domain_eq_any h]
      cases hb : subOf "youtube.com" (lowerStr h) with
      | true =>
        rw [List.any_eq_true]
        exact ⟨"youtube.com", by decide, hb⟩
      | false =>
        rw [Bool.eq_false_iff]
        intro hany
        rw [List.any_eq_true] at hany
        obtain ⟨d, hd, hsub⟩ := hany
        have hyt : subOf "youtube.com" d = true := by
          fin_cases hd <;> decide
        exact absurd (subOf_trans hyt hsub) (by simp [hb])

/-- C3: for every document containing a `head` element, injection reports
success and the first (document-order) `head` element of the result has, as
its first child, a script element whose text is the payload trimmed of
leading and trailing whitespace. -/
theorem inject_into_head (doc : List Node) (P : String) (n : Node)
    (h : findFirstTagL "head" doc = some n) :
    (inject doc P).2 = true ∧
    ∃ cs, n = Node.elem "head" cs ∧
      findFirstTagL "head" (inject doc P).1 =
        some (Node.elem "head" (scriptNode P :: cs)) :=
  inject_into_head_aux doc P n h

/-- C3 witness: a concrete document with a non-empty head. -/
theorem inject_into_head_witness :
    findFirstTagL "head"
      [Node.elem "html" [Node.elem "head" [Node.elem "title" []],
        Node.elem "body" [Node.text "hi"]]] =
      some (Node.elem "head" [Node.elem "title" []]) ∧
    ((inject [Node.elem "html" [Node.elem "head" [Node.elem "title" []],
        Node.elem "body" [Node.text "hi"]]] "alert(1)").2 = true ∧
      ∃ cs, Node.elem "head" [Node.elem "title" []] = Node.elem "head" cs ∧
        findFirstTagL "head"
          (inject [Node.elem "html" [Node.elem "head" [Node.elem "title" []],
            Node.elem "body" [Node.text "hi"]]] "alert(1)").1 =
        some (Node.elem "head" (scriptNode "alert(1)" :: cs))) :=
  ⟨rfl, inject_into_head _ "alert(1)" _ rfl⟩

/-- C4: for every document with an `html` element but no `head` element,
injection synthesizes a head, inserts it as the first child of the first
`html` element, puts the script inside that head, and reports success. -/
theorem inject_synthesizes_head (doc : List Node) (P : String) (n : Node)
    (hnohead : findFirstTagL "head" doc = none)
    (h : findFirstTagL "html" doc = some n) :
    (inject doc P).2 = true ∧
    ∃ cs, n = Node.elem "html" cs ∧
      findFirstTagL "html" (inject doc P).1 =
        some (Node.elem "html" (Node.elem "head" [scriptNode P] :: cs)) ∧
      findFirstTagL "head" (inject doc P).1 =
        some (Node.elem "head" [scriptNode P]) :=
  inject_synthesizes_head_aux doc P n hnohead h

/-- C4 witness: a concrete document with `html` but no `head`. -/
theorem inject_synthesizes_head_witness :
    findFirstTagL "head" [Node.elem "html" [Node.elem "body" []]] = none ∧
    findFirstTagL "html" [Node.elem "html" [Node.elem "body" []]] =
      some (Node.elem "html" [Node.elem "body" []]) ∧
    ((inject [Node.elem "html" [Node.elem "body" []]] "x").2 = true ∧
      ∃ cs, Node.elem "html" [Node.elem "body" []] = Node.elem "html" cs ∧
        findFirstTagL "html"
          (inject [Node.elem "html" [Node.elem "body" []]] "x").1 =
          some (Node.elem "html" (Node.elem "head" [scriptNode "x"] :: cs)) ∧
        findFirstTagL "head"
          (inject [Node.elem "html" [Node.elem "body" []]] "x").1 =
          some (Node.elem "head" [scriptNode "x"])) :=
  ⟨rfl, rfl, inject_synthesizes_head _ "x" _ rfl rfl⟩

/-- C5: with neither `html` nor `head` in the document, injection reports
false and changes nothing, and the handler delivers the exchange untouched
(a no-op, not an error). -/
theorem inject_no_skeleton (doc : List Node) (P : String)
    (h1 : findFirstTagL "head" doc = none)
    (h2 : findFirstTagL "html" doc = none) :
    inject doc P = (doc, false) ∧
    ∀ (parseHtml : String → Option (List Node))
      (serialize : List Node → String) (ex : Exchange),
      parseHtml ex.body = some doc → response parseHtml serialize P ex = ex := by
  have hpair := inject_no_skeleton_pair doc P h1 h2
  refine ⟨hpair, fun p s ex hp => ?_⟩
  rcases response_dichotomy p s P ex with h | h
  · exact h
  · obtain ⟨-, -, -, doc1, doc2, hp1, hi, -⟩ := h
    rw [hp] at hp1
    injection hp1 with hd
    subst hd
    rw [hpair] at hi
    simp at hi

/-- C5 witness: a fragment with a paragraph only. -/
theorem inject_no_skeleton_witness :
    findFirstTagL "head" [Node.elem "p" [Node.text "hi"]] = none ∧
    findFirstTagL "html" [Node.elem "p" [Node.text "hi"]] = none ∧
    (inject [Node.elem "p" [Node.text "hi"]] "x" =
        ([Node.elem "p" [Node.text "hi"]], false) ∧
      ∀ (parseHtml : String → Option (List Node))
        (serialize : List Node → String) (ex : Exchange),
        parseHtml ex.body = some [Node.elem "p" [Node.text "hi"]] →
        response parseHtml serialize "x" ex = ex) :=
  ⟨rfl, rfl, inject_no_skeleton _ "x" rfl rfl⟩

/-- C8 counterexample: with payload `" x"` (leading space) injection
succeeds, but the re-extracted script text is `"x"`, not the original
payload `" x"`; the addon's own payload constant likewise starts and ends
with a newline that `strip()` removes before insertion. -/
theorem inject_roundtrip_cex :
    (inject [Node.elem "head" []] " x").2 = true ∧
    extractInjected (inject [Node.elem "head" []] " x").1 ≠ some " x" :=
  ⟨rfl, by decide⟩

/-- C8 witness: the amended round-trip at a concrete document and payload. -/
theorem inject_roundtrip_witness :
    (inject [Node.elem "head" []] " pay ").2 = true ∧
    extractInjected (inject [Node.elem "head" []] " pay ").1 =
      some (trimChars " pay ") :=
  ⟨rfl, inject_roundtrip [Node.elem "head" []] " pay " rfl⟩

/-- C9 witness: double injection into `<head></head>` duplicates the script. -/
theorem inject_not_idempotent_witness :
    (inject [Node.elem "head" []] "x").2 = true ∧
    ((inject (inject [Node.elem "head" []] "x").1 "x").2 = true ∧
      ∃ cs, findFirstTagL "head" (inject [Node.elem "head" []] "x").1 =
          some (Node.elem "head" (scriptNode "x" :: cs)) ∧
        findFirstTagL "head"
          (inject (inject [Node.elem "head" []] "x").1 "x").1 =
          some (Node.elem "head" (scriptNode "x" :: scriptNode "x" :: cs)) ∧
        (inject (inject [Node.elem "head" []] "x").1 "x").1 ≠
          (inject [Node.elem "head" []] "x").1) :=
  ⟨rfl, inject_not_idempotent _ "x" rfl⟩

/-- C1 witness: a non-YouTube host passes through unmodified. -/
theorem response_isolation_witness :
    response (fun _ => none) (fun _ => "") ""
      ⟨some "google.com", [("content-type", "text/html")], "<p>hi</p>"⟩ =
      ⟨some "google.com", [("content-type", "text/html")], "<p>hi</p>"⟩ :=
  (response_isolation _ _ _ _).2 (Or.inl (by decide))

/-- C2 witness: an eligible exchange whose parsed body has a head; after the
handler runs, `content-length` equals the byte length of the new body. -/
theorem response_content_length_witness :
    is_youtube_domain (some "m.youtube.com") = true ∧
    is_html_response [("content-type", "text/html")] = true ∧
    hget (response (fun _ => some [Node.elem "head" []]) (fun _ => "abcd") "x"
        ⟨some "m.youtube.com", [("content-type", "text/html")],
          "<head></head>"⟩).headers "content-length" =
      some (toString (response (fun _ => some [Node.elem "head" []])
          (fun _ => "abcd") "x"
          ⟨some "m.youtube.com", [("content-type", "text/html")],
            "<head></head>"⟩).body.utf8ByteSize) :=
  ⟨by decide, by decide,
    (response_content_length _ _ "x" _ [Node.elem "head" []] rfl (by decide)
      (by decide) (by decide)).1 rfl⟩
